import Mathlib

/-!
Shallow embedding of the Sidechain cognitive-memory selection core.

Strings of the TypeScript source are modelled as `List Char`; JavaScript
numbers are modelled as exact reals (`ℝ`); `Date.now()` and the calls to
`Math.random()` / `crypto.randomUUID()` are modelled as explicit parameters
(a timestamp, uniform-draw streams, an id stream).  Fallible JS `Map.get`
lookups are modelled as `Option`-valued functions with the `|| default`
fallbacks made explicit.
-/

namespace Sidechain

/-! ### Tokenizer (tokenizer.ts) -/

/-- Models `String.prototype.toLowerCase` per character on the ASCII range:
the code points 65..90 are shifted to 97..122, every other character is
returned unchanged. -/
def jsToLower (c : Char) : Char :=
  if 65 ≤ c.toNat ∧ c.toNat ≤ 90 then Char.ofNat (c.toNat + 32) else c

/-- Lowercasing of a whole string (used for tag / keyword comparison). -/
def lowerStr (s : List Char) : List Char := s.map jsToLower

/-- Code points of the punctuation class of the regex in `tokenize`. -/
def punctCodes : List Nat :=
  [96, 126, 33, 64, 35, 36, 37, 94, 38, 42, 40, 41, 45, 95, 61, 43,
   91, 93, 123, 125, 59, 58, 39, 34, 44, 46, 60, 62, 47, 63, 92, 124]

/-- Membership in the punctuation class replaced by spaces in `tokenize`. -/
def isPunct (c : Char) : Bool := punctCodes.contains c.toNat

/-- The `replace(/[...]/g, ' ')` step of `tokenize`, per character. -/
def scrub (c : Char) : Char := if isPunct c then ' ' else c

/-- Models the whitespace class of `split(/\s+/)`. -/
def isSpaceChar (c : Char) : Bool := c.isWhitespace

/-- Split a character list at every character satisfying `p`, keeping the
(possibly empty) pieces between separators.  Models `String.prototype.split`
on a character class; the empty pieces that JS `split(/\s+/)` avoids are
removed by the truthiness filter in `tokenize`, so the two agree after
filtering. -/
def splitP (p : Char → Bool) : List Char → List (List Char)
  | [] => [[]]
  | c :: cs =>
    if p c then [] :: splitP p cs
    else
      match splitP p cs with
      | [] => [[c]]
      | t :: ts => (c :: t) :: ts

/-- The stop-word set `STOP_WORDS` of tokenizer.ts. -/
def STOP_WORDS : List (List Char) :=
  ["the", "a", "an", "and", "or", "but", "of", "to", "in", "on", "for",
   "with", "is", "it", "as", "at", "by", "be", "are", "was", "were",
   "this", "that", "from", "we", "you", "they", "i", "me", "my", "your"
  ].map String.data

/-- The filter predicate `t && !STOP_WORDS.has(t) && t.length >= 2`. -/
def keepTok (t : List Char) : Bool :=
  !t.isEmpty && !(STOP_WORDS.contains t) && decide (2 ≤ t.length)

/-- Models `tokenize` of tokenizer.ts: lowercase, replace the punctuation
class by spaces, split on whitespace and keep the non-empty non-stop-word
tokens of length at least 2. -/
def tokenize (text : List Char) : List (List Char) :=
  (splitP isSpaceChar ((text.map jsToLower).map scrub)).filter keepTok

/-- Models `Array.prototype.join(' ')` on a list of strings. -/
def joinSpace : List (List Char) → List Char
  | [] => []
  | [t] => t
  | t :: ts => t ++ ' ' :: joinSpace ts

/-- Models `shingles` of tokenizer.ts: the n-gram windows of the token
sequence, each joined by single spaces (the set-ness of the JS `Set` is
irrelevant to the claims and the multiset of windows is kept). -/
def shingles (tokens : List (List Char)) (n : Nat) : List (List Char) :=
  (List.range (tokens.length + 1 - n)).map
    (fun i => joinSpace ((tokens.drop i).take n))

/-- Models `jaccardSimilarity` of tokenizer.ts on 3-shingles. -/
noncomputable def jaccardSimilarity (textA textB : List Char) : ℝ :=
  let shinglesA := (shingles (tokenize textA) 3).dedup
  let shinglesB := (shingles (tokenize textB) 3).dedup
  let inter := (shinglesA.filter (fun x => shinglesB.contains x)).length
  let union := shinglesA.length + shinglesB.length - inter
  if 0 < union then (inter : ℝ) / (union : ℝ) else 0

/-! ### TrueSkill-style rating (trueskill.ts) -/

/-- Observation noise constant `SIGMA_OBSERVATION`. -/
def SIGMA_OBSERVATION : ℝ := 1.0

/-- Uncertainty drift constant `SIGMA_DRIFT`. -/
def SIGMA_DRIFT : ℝ := 0.01

/-- The `MemoryRating` record of types.ts.  `lastUpdatedAt` is an epoch
timestamp in milliseconds. -/
structure MemoryRating where
  memoryId : List Char
  kernelId : List Char
  mu : ℝ
  sigma : ℝ
  uses : Nat
  lastUpdatedAt : ℤ

/-- Models `thompsonSample` of trueskill.ts.  The two `Math.random()` draws
are the explicit parameters `u1`, `u2`; the `|| 1e-9` fallback guards a draw
of exactly 0, and the Box-Muller transform produces the normal deviate. -/
noncomputable def thompsonSample (mu sigma u1 u2 : ℝ) : ℝ :=
  let v1 := if u1 = 0 then 1e-9 else u1
  let v2 := if u2 = 0 then 1e-9 else u2
  let z := Real.sqrt (-2 * Real.log v1) * Real.cos (2 * Real.pi * v2)
  mu + sigma * z

/-- The Kalman gain `K = v / (v + r)` computed inside `updateRating`. -/
noncomputable def kalmanGain (sigma : ℝ) : ℝ :=
  (sigma * sigma) / (sigma * sigma + SIGMA_OBSERVATION * SIGMA_OBSERVATION)

/-- Models `updateRating` of trueskill.ts; `now` models `Date.now()`. -/
noncomputable def updateRating (currentRating : MemoryRating) (reward : ℝ)
    (now : ℤ) : MemoryRating :=
  let variance := currentRating.sigma * currentRating.sigma
  let K := kalmanGain currentRating.sigma
  let newMu := currentRating.mu + K * (reward - currentRating.mu)
  let newSigma := Real.sqrt (max 1e-6 ((1 - K) * variance)) + SIGMA_DRIFT
  { currentRating with
      mu := newMu
      sigma := max 0.1 (min 2.0 newSigma)
      uses := currentRating.uses + 1
      lastUpdatedAt := now }

/-- Models `initializeRating` of trueskill.ts; `now` models `Date.now()`. -/
def initialRating (memoryId kernelId : List Char) (now : ℤ) : MemoryRating :=
  { memoryId := memoryId
    kernelId := kernelId
    mu := 0
    sigma := 1.0
    uses := 0
    lastUpdatedAt := now }

/-- A finite sequence of feedback events applied in order: each element is a
reward together with the `Date.now()` instant of that update. -/
noncomputable def foldUpdates (r : MemoryRating) (events : List (ℝ × ℤ)) :
    MemoryRating :=
  events.foldl (fun acc e => updateRating acc e.1 e.2) r

/-! ### Theorems for claims C2, C3, C10 -/

lemma updateRating_sigma_mem (r : MemoryRating) (w : ℝ) (n : ℤ) :
    0.1 ≤ (updateRating r w n).sigma ∧ (updateRating r w n).sigma ≤ 2.0 := by
  constructor
  · exact le_max_left _ _
  · have h : min 2.0 (Real.sqrt (max 1e-6
        ((1 - kalmanGain r.sigma) * (r.sigma * r.sigma))) + SIGMA_DRIFT)
        ≤ 2.0 := min_le_left _ _
    simpa [updateRating] using max_le (by norm_num) h

lemma updateRating_uses (r : MemoryRating) (w : ℝ) (n : ℤ) :
    (updateRating r w n).uses = r.uses + 1 := rfl

lemma foldUpdates_uses (events : List (ℝ × ℤ)) :
    ∀ r : MemoryRating, (foldUpdates r events).uses = r.uses + events.length := by
  induction events with
  | nil => intro r; simp [foldUpdates]
  | cons e es ih =>
    intro r
    have h := ih (updateRating r e.1 e.2)
    simp only [foldUpdates, List.foldl_cons] at h ⊢
    rw [h, updateRating_uses]
    simp [Nat.add_comm, Nat.add_assoc]
    omega

lemma foldUpdates_sigma_mem (events : List (ℝ × ℤ)) :
    ∀ r : MemoryRating, 0.1 ≤ r.sigma → r.sigma ≤ 2.0 →
      0.1 ≤ (foldUpdates r events).sigma ∧ (foldUpdates r events).sigma ≤ 2.0 := by
  induction events with
  | nil => intro r h1 h2; simpa [foldUpdates] using ⟨h1, h2⟩
  | cons e es ih =>
    intro r _ _
    have hb := updateRating_sigma_mem r e.1 e.2
    have h := ih (updateRating r e.1 e.2) hb.1 hb.2
    simpa [foldUpdates] using h

/-- C2: starting from a freshly initialized rating, any finite sequence of
updates with rewards in the set of values -1, 0, 1 leaves sigma inside
[0.1, 2.0], keeps mu a real number (it is one by type), and increments
`uses` by exactly one per update, so after the whole sequence `uses` equals
the number of updates and in particular never decreases. -/
theorem rating_invariants (memoryId kernelId : List Char) (t0 : ℤ)
    (events : List (ℝ × ℤ))
    (_hrew : ∀ e ∈ events, e.1 = -1 ∨ e.1 = 0 ∨ e.1 = 1) :
    0.1 ≤ (foldUpdates (initialRating memoryId kernelId t0) events).sigma ∧
    (foldUpdates (initialRating memoryId kernelId t0) events).sigma ≤ 2.0 ∧
    (foldUpdates (initialRating memoryId kernelId t0) events).uses
      = events.length ∧
    ∀ (r : MemoryRating) (w : ℝ) (n : ℤ),
      (updateRating r w n).uses = r.uses + 1 := by
  have hinit1 : (0.1 : ℝ) ≤ (initialRating memoryId kernelId t0).sigma := by
    simp [initialRating]; norm_num
  have hinit2 : (initialRating memoryId kernelId t0).sigma ≤ 2.0 := by
    simp [initialRating]; norm_num
  have hs := foldUpdates_sigma_mem events _ hinit1 hinit2
  have hu := foldUpdates_uses events (initialRating memoryId kernelId t0)
  refine ⟨hs.1, hs.2, ?_, fun r w n => updateRating_uses r w n⟩
  simpa [initialRating] using hu

/-- Witness for C2 at a concrete reward sequence. -/
theorem rating_invariants_witness :
    0.1 ≤ (foldUpdates (initialRating ['m'] ['k'] 0)
        [(1, 5), (-1, 6), (0, 7)]).sigma ∧
    (foldUpdates (initialRating ['m'] ['k'] 0)
        [(1, 5), (-1, 6), (0, 7)]).sigma ≤ 2.0 ∧
    (foldUpdates (initialRating ['m'] ['k'] 0)
        [(1, 5), (-1, 6), (0, 7)]).uses = 3 ∧
    ∀ (r : MemoryRating) (w : ℝ) (n : ℤ),
      (updateRating r w n).uses = r.uses + 1 := by
  have h := rating_invariants ['m'] ['k'] 0 [(1, 5), (-1, 6), (0, 7)]
    (by intro e he; simp only [List.mem_cons, List.not_mem_nil, or_false] at he
        rcases he with h | h | h <;> subst h <;> norm_num)
  simpa using h

/-- C3: one update with reward +1 on a freshly initialized rating gives
Kalman gain 1/2, posterior mean 1/2, posterior sigma exactly
sqrt(1/2) + 0.01 (so the clamp to [0.1, 2.0] is inert, which the bounds in
the statement record), and a use count of 1. -/
theorem first_positive_update (memoryId kernelId : List Char) (t0 t1 : ℤ) :
    kalmanGain (initialRating memoryId kernelId t0).sigma = 1 / 2 ∧
    (updateRating (initialRating memoryId kernelId t0) 1 t1).mu = 1 / 2 ∧
    (updateRating (initialRating memoryId kernelId t0) 1 t1).sigma
      = Real.sqrt (1 / 2) + 0.01 ∧
    (updateRating (initialRating memoryId kernelId t0) 1 t1).uses = 1 ∧
    0.1 ≤ Real.sqrt (1 / 2) + 0.01 ∧ Real.sqrt (1 / 2) + 0.01 ≤ 2.0 := by
  have hsq : Real.sqrt (1 / 2) ^ 2 = 1 / 2 := Real.sq_sqrt (by norm_num)
  have hnn : 0 ≤ Real.sqrt (1 / 2) := Real.sqrt_nonneg _
  have hle1 : Real.sqrt (1 / 2) ≤ 1 := Real.sqrt_le_one.mpr (by norm_num)
  have hge : (0.09 : ℝ) ≤ Real.sqrt (1 / 2) := by nlinarith [hsq, hnn]
  have hK1 : kalmanGain ((1.0 : ℝ)) = 1 / 2 := by
    unfold kalmanGain SIGMA_OBSERVATION; norm_num
  have hKinit : kalmanGain (initialRating memoryId kernelId t0).sigma = 1 / 2 := by
    show kalmanGain 1.0 = 1 / 2
    exact hK1
  have hmu : (updateRating (initialRating memoryId kernelId t0) 1 t1).mu = 1 / 2 := by
    show (initialRating memoryId kernelId t0).mu
        + kalmanGain (initialRating memoryId kernelId t0).sigma
          * (1 - (initialRating memoryId kernelId t0).mu) = 1 / 2
    rw [hKinit]
    simp [initialRating]
  have harg : max (1e-6 : ℝ)
      ((1 - kalmanGain (initialRating memoryId kernelId t0).sigma)
        * ((initialRating memoryId kernelId t0).sigma
            * (initialRating memoryId kernelId t0).sigma)) = 1 / 2 := by
    rw [hKinit]
    simp [initialRating]
    norm_num
  have hsig : (updateRating (initialRating memoryId kernelId t0) 1 t1).sigma
      = Real.sqrt (1 / 2) + 0.01 := by
    show max 0.1 (min 2.0 (Real.sqrt (max 1e-6
        ((1 - kalmanGain (initialRating memoryId kernelId t0).sigma)
          * ((initialRating memoryId kernelId t0).sigma
              * (initialRating memoryId kernelId t0).sigma))) + SIGMA_DRIFT))
        = Real.sqrt (1 / 2) + 0.01
    rw [harg]
    have h2 : min (2.0 : ℝ) (Real.sqrt (1 / 2) + SIGMA_DRIFT)
        = Real.sqrt (1 / 2) + SIGMA_DRIFT := by
      apply min_eq_right; unfold SIGMA_DRIFT; nlinarith
    rw [h2]
    have h3 : max (0.1 : ℝ) (Real.sqrt (1 / 2) + SIGMA_DRIFT)
        = Real.sqrt (1 / 2) + SIGMA_DRIFT := by
      apply max_eq_right; unfold SIGMA_DRIFT; nlinarith
    rw [h3]
    unfold SIGMA_DRIFT
    norm_num
  exact ⟨hKinit, hmu, hsig, rfl, by nlinarith, by nlinarith⟩

/-- C10: `updateRating` is frame-preserving: the returned record keeps the
`memoryId` and `kernelId` of its input, and since the embedding is a pure
function the input record itself is unchanged (only `mu`, `sigma`, `uses`
and `lastUpdatedAt` may differ in the result). -/
theorem updateRating_frame (r : MemoryRating) (reward : ℝ) (now : ℤ) :
    (updateRating r reward now).memoryId = r.memoryId ∧
    (updateRating r reward now).kernelId = r.kernelId := ⟨rfl, rfl⟩

/-! ### Interaction log persistence (signals.ts, saveInteractions) -/

/-- The `MemoryInteraction` record of types.ts. -/
structure MemoryInteraction where
  id : List Char
  memoryId : List Char
  kernelId : List Char
  contextId : List Char
  reward : ℝ
  timestamp : ℤ

/-- Models the `interactions.slice(-1000)` retention step of
`saveInteractions` in signals.ts: the list that actually reaches storage. -/
def savedInteractions (interactions : List MemoryInteraction) :
    List MemoryInteraction :=
  interactions.drop (interactions.length - 1000)

/-- C8: the save path persists a suffix of the interaction list in original
order, of length exactly `min 1000 n`; in particular as soon as more than
1000 interactions have accumulated, exactly the most recent 1000 survive. -/
theorem savedInteractions_spec (l : List MemoryInteraction) :
    (savedInteractions l).IsSuffix l ∧
    (savedInteractions l).length = min 1000 l.length ∧
    (1000 ≤ l.length → (savedInteractions l).length = 1000) := by
  refine ⟨List.drop_suffix _ _, ?_, ?_⟩
  · simp [savedInteractions, List.length_drop]
    omega
  · intro h
    simp [savedInteractions, List.length_drop]
    omega

/-- Witness for C8 on a concrete log of 1500 interactions. -/
theorem savedInteractions_spec_witness :
    (savedInteractions (List.replicate 1500 ⟨[], [], [], [], 0, 0⟩)).IsSuffix
        (List.replicate 1500 ⟨[], [], [], [], 0, 0⟩) ∧
    (savedInteractions (List.replicate 1500 ⟨[], [], [], [], 0, 0⟩)).length
        = 1000 := by
  have h := savedInteractions_spec (List.replicate 1500 ⟨[], [], [], [], 0, 0⟩)
  exact ⟨h.1, h.2.2 (by rw [List.length_replicate]; norm_num)⟩

/-! ### Signal calculators (signals.ts) and composite utility (selector.ts) -/

/-- The `MemoryChunk` record of types.ts.  The optional `associations` array
is modelled as a list (absent becomes the empty list, matching the
`?.length || 0` read); the unused pass-through `episodeId` is omitted. -/
structure MemoryChunk where
  id : List Char
  content : List Char
  tags : List (List Char)
  importance : ℝ
  timestamp : ℤ
  associations : List (List Char)

/-- The `PromptKernel` record of selector.ts. -/
structure PromptKernel where
  id : List Char
  name : List Char
  prompt : List Char
  keywords : List (List Char)

/-- Models `normalizeImportance` of signals.ts. -/
noncomputable def normalizeImportance (importance : ℝ) : ℝ :=
  max 0 (min 1 ((importance - 1) / 9))

/-- Models `calculateTagRelevance` of signals.ts: the fraction of kernel
keywords whose lowercase form occurs among the lowercased memory tags (the
`!memoryTags || !kernelKeywords` null guards of the source collapse to the
emptiness checks since the model has no null lists). -/
noncomputable def calculateTagRelevance
    (memoryTags kernelKeywords : List (List Char)) : ℝ :=
  if memoryTags = [] ∨ kernelKeywords = [] then 0
  else
    ((kernelKeywords.countP
        (fun kw => (memoryTags.map lowerStr).contains (lowerStr kw)) : ℕ) : ℝ)
      / (kernelKeywords.length : ℝ)

/-- Models `calculateRecencyBoost` of signals.ts; the `Date.now()` call is
the explicit `now` parameter and the parsed `new Date(timestamp).getTime()`
is the epoch-millisecond integer `timestampMs`. -/
noncomputable def calculateRecencyBoost (timestampMs now : ℤ)
    (halfLifeDays : ℝ) : ℝ :=
  let HALF_LIFE := halfLifeDays * 24 * 3600 * 1000
  let age : ℝ := max 0 ((now : ℝ) - (timestampMs : ℝ))
  Real.exp (-(age / HALF_LIFE))

/-- Models `calculateCentrality` of signals.ts (the `!kernelKeywords ||
!memory.tags` null guard of the source is unreachable in the model; note
that in JS an empty array is truthy, so empty lists take the main path
there as well). -/
noncomputable def calculateCentrality (memory : MemoryChunk)
    (kernelKeywords : List (List Char)) : ℝ :=
  let degree : ℝ := (memory.associations.length : ℝ)
  let hasAlignment :=
    memory.tags.any (fun t => (kernelKeywords.map lowerStr).contains (lowerStr t))
  let spin : ℝ := if hasAlignment then 1.25 else 1.0
  min 1 ((degree * spin) / 10)

/-- The per-signal diagnostics carried by a selected memory (the `signals`
field of `SelectedMemory` in types.ts). -/
structure UtilitySignals where
  importance : ℝ
  tagRelevance : ℝ
  lexicalScore : ℝ
  recency : ℝ
  centrality : ℝ
  thompson : ℝ

/-- Return value of `calculateUtility`. -/
structure UtilityResult where
  total : ℝ
  signals : UtilitySignals

/-- The `WEIGHTS` constants of selector.ts. -/
def WEIGHTS_IMPORTANCE : ℝ := 0.10

/-- Weight of the tag-relevance signal. -/
def WEIGHTS_TAG_RELEVANCE : ℝ := 0.25

/-- Weight of the log-scaled BM25 signal. -/
def WEIGHTS_LEXICAL : ℝ := 0.30

/-- Weight of the recency signal. -/
def WEIGHTS_RECENCY : ℝ := 0.10

/-- Weight of the centrality signal. -/
def WEIGHTS_CENTRALITY : ℝ := 0.10

/-- Weight of the Thompson signal. -/
def WEIGHTS_THOMPSON : ℝ := 0.15

/-- Models `calculateUtility` of selector.ts; `now` models `Date.now()`
inside the recency signal. -/
noncomputable def calculateUtility (now : ℤ) (memory : MemoryChunk)
    (kernel : PromptKernel) (bm25Score thompsonScore : ℝ) : UtilityResult :=
  let importance := normalizeImportance memory.importance
  let tagRelevance := calculateTagRelevance memory.tags kernel.keywords
  let recency := calculateRecencyBoost memory.timestamp now 14
  let centrality := calculateCentrality memory kernel.keywords
  let lexical := if 0 < bm25Score then Real.log (1 + bm25Score) / 5 else 0
  let total :=
    WEIGHTS_IMPORTANCE * importance +
    WEIGHTS_TAG_RELEVANCE * tagRelevance +
    WEIGHTS_LEXICAL * lexical +
    WEIGHTS_RECENCY * recency +
    WEIGHTS_CENTRALITY * centrality +
    WEIGHTS_THOMPSON * max 0 (min 1 ((thompsonScore + 1) / 2))
  { total := total
    signals :=
      { importance := importance
        tagRelevance := tagRelevance
        lexicalScore := lexical
        recency := recency
        centrality := centrality
        thompson := thompsonScore } }

lemma normalizeImportance_mem (x : ℝ) :
    0 ≤ normalizeImportance x ∧ normalizeImportance x ≤ 1 :=
  ⟨le_max_left _ _, max_le (by norm_num) (min_le_left _ _)⟩

lemma calculateTagRelevance_mem (tags kws : List (List Char)) :
    0 ≤ calculateTagRelevance tags kws ∧ calculateTagRelevance tags kws ≤ 1 := by
  unfold calculateTagRelevance
  split
  · norm_num
  · rename_i h
    push_neg at h
    have hlen : 0 < (kws.length : ℝ) := by
      have := List.length_pos.mpr h.2
      exact_mod_cast this
    constructor
    · positivity
    · rw [div_le_one hlen]
      exact_mod_cast List.countP_le_length _

lemma calculateRecencyBoost_mem (ts now : ℤ) :
    0 ≤ calculateRecencyBoost ts now 14 ∧ calculateRecencyBoost ts now 14 ≤ 1 := by
  unfold calculateRecencyBoost
  refine ⟨(Real.exp_pos _).le, ?_⟩
  rw [Real.exp_le_one_iff]
  have hage : (0 : ℝ) ≤ max 0 ((now : ℝ) - (ts : ℝ)) := le_max_left _ _
  have hpos : (0 : ℝ) < 14 * 24 * 3600 * 1000 := by norm_num
  have := div_nonneg hage hpos.le
  linarith

lemma calculateCentrality_mem (m : MemoryChunk) (kws : List (List Char)) :
    0 ≤ calculateCentrality m kws ∧ calculateCentrality m kws ≤ 1 := by
  unfold calculateCentrality
  refine ⟨le_min (by norm_num) ?_, min_le_left _ _⟩
  have hdeg : (0 : ℝ) ≤ (m.associations.length : ℝ) := by positivity
  split <;> positivity

lemma thompson_mapped_mem (t : ℝ) :
    0 ≤ max 0 (min 1 ((t + 1) / 2)) ∧ max 0 (min 1 ((t + 1) / 2)) ≤ 1 :=
  ⟨le_max_left _ _, max_le (by norm_num) (min_le_left _ _)⟩

/-- C1 (amended): for every memory, kernel, Thompson sample, and BM25 score
b with 0 ≤ b ≤ e^5 − 1 (so that the log-scaled lexical signal stays at most
1), the signals importance, tagRelevance, recency, centrality and the
mapped Thompson value each lie in [0,1] and the weighted composite total
lies in [0,1].  Without the upper bound on b the composite can exceed 1,
see the counterexample. -/
theorem calculateUtility_bounds (now : ℤ) (memory : MemoryChunk)
    (kernel : PromptKernel) (b t : ℝ) (_hb0 : 0 ≤ b)
    (hb1 : b ≤ Real.exp 5 - 1) :
    (0 ≤ (calculateUtility now memory kernel b t).signals.importance ∧
      (calculateUtility now memory kernel b t).signals.importance ≤ 1) ∧
    (0 ≤ (calculateUtility now memory kernel b t).signals.tagRelevance ∧
      (calculateUtility now memory kernel b t).signals.tagRelevance ≤ 1) ∧
    (0 ≤ (calculateUtility now memory kernel b t).signals.recency ∧
      (calculateUtility now memory kernel b t).signals.recency ≤ 1) ∧
    (0 ≤ (calculateUtility now memory kernel b t).signals.centrality ∧
      (calculateUtility now memory kernel b t).signals.centrality ≤ 1) ∧
    (0 ≤ max 0 (min 1 ((t + 1) / 2)) ∧ max 0 (min 1 ((t + 1) / 2)) ≤ 1) ∧
    (0 ≤ (calculateUtility now memory kernel b t).total ∧
      (calculateUtility now memory kernel b t).total ≤ 1) := by
  have himp := normalizeImportance_mem memory.importance
  have htag := calculateTagRelevance_mem memory.tags kernel.keywords
  have hrec := calculateRecencyBoost_mem memory.timestamp now
  have hcen := calculateCentrality_mem memory kernel.keywords
  have hth := thompson_mapped_mem t
  have hlex : 0 ≤ (if 0 < b then Real.log (1 + b) / 5 else 0) ∧
      (if 0 < b then Real.log (1 + b) / 5 else 0) ≤ 1 := by
    split
    · rename_i hbpos
      constructor
      · have : (0 : ℝ) ≤ Real.log (1 + b) := Real.log_nonneg (by linarith)
        linarith
      · have hlog : Real.log (1 + b) ≤ 5 := by
          have h1 : (1 : ℝ) + b ≤ Real.exp 5 := by linarith
          have h2 : (0 : ℝ) < 1 + b := by linarith
          rw [Real.log_le_iff_le_exp h2]
          exact h1
        linarith
    · norm_num
  refine ⟨himp, htag, hrec, hcen, hth, ?_⟩
  show 0 ≤ WEIGHTS_IMPORTANCE * normalizeImportance memory.importance +
      WEIGHTS_TAG_RELEVANCE * calculateTagRelevance memory.tags kernel.keywords +
      WEIGHTS_LEXICAL * (if 0 < b then Real.log (1 + b) / 5 else 0) +
      WEIGHTS_RECENCY * calculateRecencyBoost memory.timestamp now 14 +
      WEIGHTS_CENTRALITY * calculateCentrality memory kernel.keywords +
      WEIGHTS_THOMPSON * max 0 (min 1 ((t + 1) / 2)) ∧
    WEIGHTS_IMPORTANCE * normalizeImportance memory.importance +
      WEIGHTS_TAG_RELEVANCE * calculateTagRelevance memory.tags kernel.keywords +
      WEIGHTS_LEXICAL * (if 0 < b then Real.log (1 + b) / 5 else 0) +
      WEIGHTS_RECENCY * calculateRecencyBoost memory.timestamp now 14 +
      WEIGHTS_CENTRALITY * calculateCentrality memory kernel.keywords +
      WEIGHTS_THOMPSON * max 0 (min 1 ((t + 1) / 2)) ≤ 1
  unfold WEIGHTS_IMPORTANCE WEIGHTS_TAG_RELEVANCE WEIGHTS_LEXICAL
    WEIGHTS_RECENCY WEIGHTS_CENTRALITY WEIGHTS_THOMPSON
  obtain ⟨h1a, h1b⟩ := himp
  obtain ⟨h2a, h2b⟩ := htag
  obtain ⟨h3a, h3b⟩ := hlex
  obtain ⟨h4a, h4b⟩ := hrec
  obtain ⟨h5a, h5b⟩ := hcen
  obtain ⟨h6a, h6b⟩ := hth
  constructor <;> nlinarith

/-- Concrete memory used for the C1 counterexample and the C1 witness. -/
def cexMemory : MemoryChunk :=
  { id := "m".data
    content := "c".data
    tags := ["ai".data]
    importance := 10
    timestamp := 0
    associations := List.replicate 10 "x".data }

/-- Concrete kernel used for the C1 counterexample and the C1 witness. -/
def cexKernel : PromptKernel :=
  { id := "k".data
    name := "n".data
    prompt := "p".data
    keywords := ["ai".data] }

lemma calculateTagRelevance_self (x : List Char) :
    calculateTagRelevance [x] [x] = 1 := by
  unfold calculateTagRelevance
  rw [if_neg (by simp)]
  simp [List.countP_cons]

lemma calculateCentrality_cex :
    calculateCentrality cexMemory cexKernel.keywords = 1 := by
  unfold calculateCentrality cexMemory cexKernel
  simp
  norm_num

/-- C1 counterexample: the claim as stated quantifies over every BM25 score
b ≥ 0, but at b = e^10 − 1 (with all other signals at their maxima) the
composite total is 1.3 > 1, so the composite does not in general lie in
[0,1]. -/
theorem calculateUtility_total_gt_one :
    0 ≤ Real.exp 10 - 1 ∧
    1 < (calculateUtility 0 cexMemory cexKernel (Real.exp 10 - 1) 1).total := by
  have hexp : (1 : ℝ) ≤ Real.exp 10 := Real.one_le_exp (by norm_num)
  have hexp1 : (1 : ℝ) < Real.exp 10 := by
    have := Real.exp_lt_exp.mpr (show (0 : ℝ) < 10 by norm_num)
    rwa [Real.exp_zero] at this
  refine ⟨by linarith, ?_⟩
  have himp : normalizeImportance cexMemory.importance = 1 := by
    unfold normalizeImportance cexMemory
    norm_num
  have htag : calculateTagRelevance cexMemory.tags cexKernel.keywords = 1 := by
    unfold cexMemory cexKernel
    exact calculateTagRelevance_self _
  have hrec : calculateRecencyBoost cexMemory.timestamp 0 14 = 1 := by
    unfold calculateRecencyBoost cexMemory
    norm_num
  have hcen := calculateCentrality_cex
  have hlex : (if 0 < Real.exp 10 - 1 then
      Real.log (1 + (Real.exp 10 - 1)) / 5 else 0) = 2 := by
    rw [if_pos (by linarith)]
    rw [show (1 : ℝ) + (Real.exp 10 - 1) = Real.exp 10 by ring]
    rw [Real.log_exp]
    norm_num
  have hth : max 0 (min 1 (((1 : ℝ) + 1) / 2)) = 1 := by norm_num
  show 1 < WEIGHTS_IMPORTANCE * normalizeImportance cexMemory.importance +
      WEIGHTS_TAG_RELEVANCE
        * calculateTagRelevance cexMemory.tags cexKernel.keywords +
      WEIGHTS_LEXICAL * (if 0 < Real.exp 10 - 1 then
        Real.log (1 + (Real.exp 10 - 1)) / 5 else 0) +
      WEIGHTS_RECENCY * calculateRecencyBoost cexMemory.timestamp 0 14 +
      WEIGHTS_CENTRALITY * calculateCentrality cexMemory cexKernel.keywords +
      WEIGHTS_THOMPSON * max 0 (min 1 (((1 : ℝ) + 1) / 2))
  rw [himp, htag, hrec, hcen, hlex, hth]
  unfold WEIGHTS_IMPORTANCE WEIGHTS_TAG_RELEVANCE WEIGHTS_LEXICAL
    WEIGHTS_RECENCY WEIGHTS_CENTRALITY WEIGHTS_THOMPSON
  norm_num

/-- Witness for C1 at a concrete memory, kernel and BM25 score 0. -/
theorem calculateUtility_bounds_witness :
    (0 ≤ (calculateUtility 0 cexMemory cexKernel 0 0).signals.importance ∧
      (calculateUtility 0 cexMemory cexKernel 0 0).signals.importance ≤ 1) ∧
    (0 ≤ (calculateUtility 0 cexMemory cexKernel 0 0).signals.tagRelevance ∧
      (calculateUtility 0 cexMemory cexKernel 0 0).signals.tagRelevance ≤ 1) ∧
    (0 ≤ (calculateUtility 0 cexMemory cexKernel 0 0).signals.recency ∧
      (calculateUtility 0 cexMemory cexKernel 0 0).signals.recency ≤ 1) ∧
    (0 ≤ (calculateUtility 0 cexMemory cexKernel 0 0).signals.centrality ∧
      (calculateUtility 0 cexMemory cexKernel 0 0).signals.centrality ≤ 1) ∧
    (0 ≤ max 0 (min 1 (((0 : ℝ) + 1) / 2)) ∧
      max 0 (min 1 (((0 : ℝ) + 1) / 2)) ≤ 1) ∧
    (0 ≤ (calculateUtility 0 cexMemory cexKernel 0 0).total ∧
      (calculateUtility 0 cexMemory cexKernel 0 0).total ≤ 1) := by
  have h5 : (0 : ℝ) ≤ Real.exp 5 - 1 := by
    have := Real.one_le_exp (show (0 : ℝ) ≤ 5 by norm_num)
    linarith
  exact calculateUtility_bounds 0 cexMemory cexKernel 0 0 le_rfl h5

/-! ### BM25 lexical scoring (bm25.ts) -/

/-- The BM25 constant k1. -/
def BM25_K1 : ℝ := 1.2

/-- The BM25 constant b. -/
def BM25_B : ℝ := 0.75

/-- The contribution of one query term present in the document:
idf times the epsilon-guarded tf-normalization quotient. -/
noncomputable def bm25TermScore (termFreq dfv totalDocuments docLength : ℕ)
    (avgDocLength : ℝ) : ℝ :=
  let idf := Real.log (((totalDocuments : ℝ) - (dfv : ℝ) + 0.5)
      / ((dfv : ℝ) + 0.5) + 1)
  let numerator := (termFreq : ℝ) * (BM25_K1 + 1)
  let denominator := (termFreq : ℝ) + BM25_K1 * (1 - BM25_B
      + BM25_B * ((docLength : ℝ) / max 1 avgDocLength))
  idf * (numerator / max 1e-6 denominator)

/-- Models `calculateBM25` of bm25.ts.  The `Map` of document frequencies
is modelled as a total function with the `|| 0` fallback for absent keys
built in; the per-document term-frequency map is `List.count`; the
iteration over `[...new Set(queryTokens)]` is the sum over the deduplicated
query token list. -/
noncomputable def calculateBM25 (queryTokens documentTokens : List (List Char))
    (documentFrequencies : List Char → ℕ) (totalDocuments : ℕ)
    (avgDocLength : ℝ) : ℝ :=
  if queryTokens = [] ∨ documentTokens = [] then 0
  else
    (queryTokens.dedup.map (fun term =>
      let termFreq := documentTokens.count term
      if termFreq = 0 then 0
      else if documentFrequencies term = 0 then 0
      else bm25TermScore termFreq (documentFrequencies term) totalDocuments
        documentTokens.length avgDocLength)).sum

/-- Models `buildDocumentFrequencies` of bm25.ts on the candidate contents:
the number of documents whose token set contains the term. -/
def buildDocumentFrequencies (docs : List (List Char)) (term : List Char) : ℕ :=
  docs.countP (fun d => (tokenize d).contains term)

lemma list_sum_pos_of_mem {l : List ℝ} (h0 : ∀ x ∈ l, 0 ≤ x) {x : ℝ}
    (hx : x ∈ l) (hpos : 0 < x) : 0 < l.sum := by
  induction l with
  | nil => cases hx
  | cons y ys ih =>
    rw [List.sum_cons]
    rcases List.mem_cons.mp hx with h | h
    · subst h
      have : (0 : ℝ) ≤ ys.sum :=
        List.sum_nonneg (fun z hz => h0 z (List.mem_cons_of_mem _ hz))
      linarith
    · have hy : (0 : ℝ) ≤ y := h0 y (List.mem_cons_self y ys)
      have := ih (fun z hz => h0 z (List.mem_cons_of_mem _ hz)) h
      linarith

lemma bm25TermScore_pos {tf dfv N : ℕ} (htf : 1 ≤ tf) (hdf : 1 ≤ dfv)
    (hN : dfv ≤ N) (docLength : ℕ) (avg : ℝ) :
    0 < bm25TermScore tf dfv N docLength avg := by
  unfold bm25TermScore
  have hNdf : (0 : ℝ) < (N : ℝ) - (dfv : ℝ) + 0.5 := by
    have : (dfv : ℝ) ≤ (N : ℝ) := by exact_mod_cast hN
    linarith
  have hden : (0 : ℝ) < (dfv : ℝ) + 0.5 := by positivity
  have hfrac : (0 : ℝ) < ((N : ℝ) - (dfv : ℝ) + 0.5) / ((dfv : ℝ) + 0.5) :=
    div_pos hNdf hden
  have hidf : 0 < Real.log (((N : ℝ) - (dfv : ℝ) + 0.5)
      / ((dfv : ℝ) + 0.5) + 1) := Real.log_pos (by linarith)
  have htfR : (0 : ℝ) < (tf : ℝ) := by exact_mod_cast htf
  have hnum : (0 : ℝ) < (tf : ℝ) * (BM25_K1 + 1) := by
    unfold BM25_K1; nlinarith
  have hmax : (0 : ℝ) < max 1e-6 ((tf : ℝ) + BM25_K1 * (1 - BM25_B
      + BM25_B * ((docLength : ℝ) / max 1 avg))) :=
    lt_max_of_lt_left (by norm_num)
  exact mul_pos hidf (div_pos hnum hmax)

/-- C4 (amended): BM25 is zero whenever the query and the document share no
tokens; and it is strictly positive whenever some query term occurs in the
document with document frequency at least 1 and less than N, provided every
query term occurring in the document has document frequency at most N (so
no term contributes a negative BM25+ idf).  As literally stated the claim
fails: a shared term whose df is 0 is skipped by the `df === 0` guard, see
the counterexample. -/
theorem calculateBM25_spec (queryTokens documentTokens : List (List Char))
    (df : List Char → ℕ) (N : ℕ) (avg : ℝ) :
    ((∀ t ∈ queryTokens, t ∉ documentTokens) →
      calculateBM25 queryTokens documentTokens df N avg = 0) ∧
    (∀ t, t ∈ queryTokens → t ∈ documentTokens → 1 ≤ df t → df t < N →
      (∀ s, s ∈ queryTokens → s ∈ documentTokens → df s ≤ N) →
      0 < calculateBM25 queryTokens documentTokens df N avg) := by
  constructor
  · intro hdisj
    unfold calculateBM25
    split
    · rfl
    · have hz : ∀ r ∈ (queryTokens.dedup.map (fun term =>
          let termFreq := documentTokens.count term
          if termFreq = 0 then 0
          else if df term = 0 then 0
          else bm25TermScore termFreq (df term) N
            documentTokens.length avg)), r = (0 : ℝ) := by
        intro r hr
        rcases List.mem_map.mp hr with ⟨term, hterm, hval⟩
        have hnotmem : term ∉ documentTokens :=
          hdisj term (List.mem_dedup.mp hterm)
        have hcount : documentTokens.count term = 0 :=
          List.count_eq_zero.mpr hnotmem
        simp only [hcount] at hval
        simpa using hval.symm
      exact List.sum_eq_zero hz
  · intro t htq htd hdf1 hdfN hall
    unfold calculateBM25
    rw [if_neg (by
      push_neg
      exact ⟨List.ne_nil_of_mem htq, List.ne_nil_of_mem htd⟩)]
    apply list_sum_pos_of_mem (x := bm25TermScore (documentTokens.count t)
      (df t) N documentTokens.length avg)
    · intro x hx
      rcases List.mem_map.mp hx with ⟨term, hterm, hval⟩
      by_cases hc : documentTokens.count term = 0
      · simp only [hc, if_pos rfl] at hval
        simp [hval.symm]
      · by_cases hd : df term = 0
        · simp only [hc, if_neg hc, hd, if_pos rfl] at hval
          simp [hval.symm]
        · have hmem : term ∈ documentTokens := by
            by_contra hcon
            exact hc (List.count_eq_zero.mpr hcon)
          have hle : df term ≤ N := hall term (List.mem_dedup.mp hterm) hmem
          have hpos := bm25TermScore_pos
            (Nat.one_le_iff_ne_zero.mpr hc) (Nat.one_le_iff_ne_zero.mpr hd)
            hle documentTokens.length avg
          simp only [hc, hd, if_false] at hval
          rw [hval] at hpos
          exact hpos.le
    · have hcnt : documentTokens.count t ≠ 0 :=
        fun hz => (List.count_eq_zero.mp hz) htd
      have hmem0 := List.mem_map_of_mem
        (f := fun term : List Char =>
          let termFreq := documentTokens.count term
          if termFreq = 0 then 0
          else if df term = 0 then 0
          else bm25TermScore termFreq (df term) N documentTokens.length avg)
        (List.mem_dedup.mpr htq)
      simpa only [if_neg hcnt, if_neg (Nat.one_le_iff_ne_zero.mp hdf1)]
        using hmem0
    · exact bm25TermScore_pos
        (Nat.one_le_iff_ne_zero.mpr
          (fun hz => (List.count_eq_zero.mp hz) htd))
        hdf1 hdfN.le documentTokens.length avg

/-- C4 counterexample: take the query and the document to be the single
shared token "aa", a document-frequency map that is constantly 0, and N = 1
(so the shared term has df 0 which is less than N).  The claim as stated
demands a strictly positive score, but the source skips df = 0 terms and
returns 0. -/
theorem calculateBM25_zero_df_counterexample :
    "aa".data ∈ ["aa".data] ∧ (fun _ : List Char => 0) "aa".data < 1 ∧
    calculateBM25 ["aa".data] ["aa".data] (fun _ => 0) 1 1 = 0 := by
  refine ⟨List.mem_singleton.mpr rfl, by norm_num, ?_⟩
  unfold calculateBM25
  rw [if_neg (by simp)]
  simp

/-- Witness for C4 at a concrete query and document. -/
theorem calculateBM25_spec_witness :
    0 < calculateBM25 ["raft".data] ["raft".data]
      (fun t => if t = "raft".data then 1 else 0) 2 1 := by
  have h := (calculateBM25_spec ["raft".data] ["raft".data]
      (fun t => if t = "raft".data then 1 else 0) 2 1).2
  apply h "raft".data (List.mem_singleton.mpr rfl) (List.mem_singleton.mpr rfl)
  · simp
  · simp
  · intro s hs _
    rcases List.mem_singleton.mp hs with rfl
    simp

/-! ### Tokenization idempotence (tokenizer.ts, claim C6) -/

lemma charOfNat_toNat {n : ℕ} (h1 : 97 ≤ n) (h2 : n ≤ 122) :
    (Char.ofNat n).toNat = n := by
  have hv : n.isValidChar := Or.inl (by omega)
  simp only [Char.ofNat, hv, dif_pos, Char.ofNatAux, Char.toNat]
  simp [UInt32.toNat, BitVec.toNat_ofNatLt]

lemma jsToLower_idem (c : Char) : jsToLower (jsToLower c) = jsToLower c := by
  by_cases h : 65 ≤ c.toNat ∧ c.toNat ≤ 90
  · have h1 : jsToLower c = Char.ofNat (c.toNat + 32) := by
      unfold jsToLower; rw [if_pos h]
    have ht : (Char.ofNat (c.toNat + 32)).toNat = c.toNat + 32 :=
      charOfNat_toNat (by omega) (by omega)
    rw [h1]
    unfold jsToLower
    rw [if_neg (by rw [ht]; omega)]
  · have h1 : jsToLower c = c := by unfold jsToLower; rw [if_neg h]
    rw [h1, h1]

lemma jsToLower_space : jsToLower ' ' = ' ' := by decide

lemma scrub_space : scrub ' ' = ' ' := by decide

lemma splitP_ne_nil (p : Char → Bool) (l : List Char) : splitP p l ≠ [] := by
  induction l with
  | nil => simp [splitP]
  | cons c cs ih =>
    unfold splitP
    split
    · simp
    · cases h : splitP p cs with
      | nil => exact absurd h ih
      | cons t ts => simp

lemma mem_splitP (p : Char → Bool) :
    ∀ l t, t ∈ splitP p l → ∀ c ∈ t, c ∈ l ∧ p c = false := by
  intro l
  induction l with
  | nil =>
    intro t ht c hc
    simp only [splitP, List.mem_singleton] at ht
    subst ht
    cases hc
  | cons a as ih =>
    intro t ht c hc
    unfold splitP at ht
    by_cases hp : p a = true
    · rw [if_pos hp] at ht
      rcases List.mem_cons.mp ht with h | h
      · subst h; cases hc
      · have := ih t h c hc
        exact ⟨List.mem_cons_of_mem _ this.1, this.2⟩
    · rw [if_neg hp] at ht
      cases hsp : splitP p as with
      | nil => exact absurd hsp (splitP_ne_nil p as)
      | cons t0 ts =>
        rw [hsp] at ht
        rcases List.mem_cons.mp ht with h | h
        · subst h
          rcases List.mem_cons.mp hc with h | h
          · subst h
            exact ⟨List.mem_cons_self _ _, Bool.not_eq_true _ ▸ (by simpa using hp)⟩
          · have ht0 : t0 ∈ splitP p as := by rw [hsp]; exact List.mem_cons_self _ _
            have := ih t0 ht0 c h
            exact ⟨List.mem_cons_of_mem _ this.1, this.2⟩
        · have htm : t ∈ splitP p as := by
            rw [hsp]; exact List.mem_cons_of_mem _ h
          have := ih t htm c hc
          exact ⟨List.mem_cons_of_mem _ this.1, this.2⟩

lemma splitP_no_sep (p : Char → Bool) :
    ∀ t : List Char, (∀ c ∈ t, p c = false) → splitP p t = [t] := by
  intro t
  induction t with
  | nil => intro _; rfl
  | cons c cs ih =>
    intro h
    have hc : p c = false := h c (List.mem_cons_self _ _)
    have hcs := ih (fun x hx => h x (List.mem_cons_of_mem _ hx))
    unfold splitP
    rw [if_neg (by simp [hc]), hcs]

lemma splitP_cons_eq (p : Char → Bool) (c : Char) (cs : List Char) :
    splitP p (c :: cs) =
      if p c = true then [] :: splitP p cs
      else
        match splitP p cs with
        | [] => [[c]]
        | t :: ts => (c :: t) :: ts := rfl

lemma splitP_append_sep (p : Char → Bool) (hsp : p ' ' = true) :
    ∀ t r : List Char, (∀ c ∈ t, p c = false) →
      splitP p (t ++ ' ' :: r) = t :: splitP p r := by
  intro t
  induction t with
  | nil =>
    intro r _
    simp only [List.nil_append]
    rw [splitP_cons_eq, if_pos hsp]
  | cons c cs ih =>
    intro r h
    have hc : p c = false := h c (List.mem_cons_self _ _)
    have hcs := ih r (fun x hx => h x (List.mem_cons_of_mem _ hx))
    simp only [List.cons_append]
    rw [splitP_cons_eq, if_neg (by simp [hc]), hcs]

lemma mem_joinSpace :
    ∀ (ts : List (List Char)) (c : Char), c ∈ joinSpace ts →
      c = ' ' ∨ ∃ t ∈ ts, c ∈ t := by
  intro ts
  induction ts with
  | nil => intro c hc; cases hc
  | cons t ts ih =>
    intro c hc
    cases ts with
    | nil =>
      right
      exact ⟨t, List.mem_cons_self _ _, by simpa [joinSpace] using hc⟩
    | cons t1 ts1 =>
      simp only [joinSpace] at hc
      rcases List.mem_append.mp hc with h | h
      · exact Or.inr ⟨t, List.mem_cons_self _ _, h⟩
      · rcases List.mem_cons.mp h with h | h
        · exact Or.inl h
        · rcases ih c h with h | ⟨u, hu, hcu⟩
          · exact Or.inl h
          · exact Or.inr ⟨u, List.mem_cons_of_mem _ hu, hcu⟩

lemma splitP_joinSpace (p : Char → Bool) (hsp : p ' ' = true) :
    ∀ ts : List (List Char), ts ≠ [] →
      (∀ t ∈ ts, ∀ c ∈ t, p c = false) →
      splitP p (joinSpace ts) = ts := by
  intro ts
  induction ts with
  | nil => intro h; exact absurd rfl h
  | cons t ts ih =>
    intro _ h
    cases ts with
    | nil =>
      show splitP p (joinSpace [t]) = [t]
      simp only [joinSpace]
      exact splitP_no_sep p t (h t (List.mem_cons_self _ _))
    | cons t1 ts1 =>
      show splitP p (t ++ ' ' :: joinSpace (t1 :: ts1)) = t :: t1 :: ts1
      rw [splitP_append_sep p hsp t _ (h t (List.mem_cons_self _ _))]
      rw [ih (by simp) (fun u hu => h u (List.mem_cons_of_mem _ hu))]

lemma tokenize_token_chars (l : List Char) :
    ∀ t ∈ tokenize l, keepTok t = true ∧
      ∀ c ∈ t, jsToLower c = c ∧ scrub c = c ∧ isSpaceChar c = false := by
  intro t ht
  have hf := List.mem_filter.mp ht
  refine ⟨hf.2, ?_⟩
  intro c hc
  have hm := mem_splitP isSpaceChar _ t hf.1 c hc
  have hsp : isSpaceChar c = false := hm.2
  rcases List.mem_map.mp hm.1 with ⟨y, hy, hscrub⟩
  rcases List.mem_map.mp hy with ⟨c0, _, hlow⟩
  have hcy : c = scrub y := hscrub.symm
  have hynotp : isPunct y = false := by
    by_contra hp
    have : scrub y = ' ' := by
      unfold scrub
      rw [if_pos (by simpa using hp)]
    rw [← hcy] at this
    rw [this] at hsp
    simp [isSpaceChar] at hsp
  have hcy2 : c = y := by
    rw [hcy]
    unfold scrub
    rw [if_neg (by simp [hynotp])]
  have hlow2 : jsToLower c = c := by
    rw [hcy2, ← hlow]
    exact jsToLower_idem c0
  refine ⟨hlow2, ?_, hsp⟩
  rw [hcy2]
  unfold scrub
  rw [if_neg (by simp [hynotp])]

/-- C6: tokenization is idempotent: re-tokenizing the space-join of the
token list of any character sequence returns that token list unchanged
(every emitted token is already lowercase, punctuation-free,
whitespace-free, at least two characters long and not a stop word, so the
second pass keeps everything). -/
theorem tokenize_idempotent (l : List Char) :
    tokenize (joinSpace (tokenize l)) = tokenize l := by
  have htok := tokenize_token_chars l
  have hfix : ∀ c ∈ joinSpace (tokenize l), jsToLower c = c ∧ scrub c = c := by
    intro c hc
    rcases mem_joinSpace (tokenize l) c hc with h | ⟨t, ht, hct⟩
    · subst h
      exact ⟨jsToLower_space, scrub_space⟩
    · have := (htok t ht).2 c hct
      exact ⟨this.1, this.2.1⟩
  have hmap1 : (joinSpace (tokenize l)).map jsToLower = joinSpace (tokenize l) := by
    rw [List.map_congr_left (fun a ha => (hfix a ha).1)]
    exact List.map_id _
  have hmap2 : (joinSpace (tokenize l)).map scrub = joinSpace (tokenize l) := by
    rw [List.map_congr_left (fun a ha => (hfix a ha).2)]
    exact List.map_id _
  show (splitP isSpaceChar
      (((joinSpace (tokenize l)).map jsToLower).map scrub)).filter keepTok
    = tokenize l
  rw [hmap1, hmap2]
  by_cases hempty : tokenize l = []
  · rw [hempty]
    show (splitP isSpaceChar (joinSpace [])).filter keepTok = []
    simp [joinSpace, splitP, keepTok]
  · rw [splitP_joinSpace isSpaceChar (by decide) (tokenize l) hempty
      (fun t ht c hc => ((htok t ht).2 c hc).2.2)]
    exact List.filter_eq_self.mpr (fun t ht => (htok t ht).1)

/-! ### MMR diversity selection (diversity.ts)

The source works on records that structurally extend `ScoredItem` (an `id`,
a `content` and a `score` field plus arbitrary extra fields); the model is
generic in the record type `T` with the two field accesses passed as
projections. -/

/-- The stable descending sort performed by
`[...candidates].sort((a, b) => b.score - a.score)`; JS `Array.sort` is
stable, and so is insertion sort with this relation. -/
noncomputable def sortDesc {T : Type} (score : T → ℝ) (l : List T) : List T :=
  l.insertionSort (fun a b => score b ≤ score a)

/-- Maximum Jaccard similarity of a candidate to the already-selected
items: `Math.max(...selected.map(...))` over a nonempty list, 0 when
nothing is selected yet. -/
noncomputable def mmrMaxSim {T : Type} (content : T → List Char)
    (selected : List T) (c : T) : ℝ :=
  match selected with
  | [] => 0
  | s :: ss =>
    (ss.map (fun s2 => jaccardSimilarity (content c) (content s2))).foldl
      max (jaccardSimilarity (content c) (content s))

/-- The MMR objective `lambda * relevance - (1 - lambda) * similarity`. -/
noncomputable def mmrScore {T : Type} (score : T → ℝ) (content : T → List Char)
    (lam : ℝ) (selected : List T) (c : T) : ℝ :=
  lam * score c - (1 - lam) * mmrMaxSim content selected c

/-- The scan for the best remaining candidate.  The JS loop starts from
bestScore = -Infinity and replaces its best index only on a strict
improvement, hence returns the first-encountered maximiser; `pickBest`
returns that element together with the rest of the list in order. -/
noncomputable def pickBest {T : Type} (f : T → ℝ) : T → List T → T × List T
  | x, [] => (x, [])
  | x, y :: ys =>
    let p := pickBest f y ys
    if f x < f p.1 then (p.1, x :: p.2) else (x, y :: ys)

lemma pickBest_cons_eq {T : Type} (f : T → ℝ) (x y : T) (ys : List T) :
    pickBest f x (y :: ys) =
      if f x < f (pickBest f y ys).1
      then ((pickBest f y ys).1, x :: (pickBest f y ys).2)
      else (x, y :: ys) := rfl

lemma pickBest_perm {T : Type} (f : T → ℝ) :
    ∀ (xs : List T) (x : T),
      ((pickBest f x xs).1 :: (pickBest f x xs).2).Perm (x :: xs) := by
  intro xs
  induction xs with
  | nil => intro x; rfl
  | cons y ys ih =>
    intro x
    rw [pickBest_cons_eq]
    split
    · exact (List.Perm.swap _ _ _).trans ((ih y).cons x)
    · rfl

lemma pickBest_snd_length {T : Type} (f : T → ℝ) (x : T) (xs : List T) :
    (pickBest f x xs).2.length = xs.length := by
  have h := (pickBest_perm f xs x).length_eq
  simpa using h

lemma pickBest_fst_mem {T : Type} (f : T → ℝ) (x : T) (xs : List T) :
    (pickBest f x xs).1 ∈ x :: xs :=
  (pickBest_perm f xs x).subset (List.mem_cons_self _ _)

lemma pickBest_of_forall_le {T : Type} (f : T → ℝ) (x : T) (xs : List T)
    (h : ∀ y ∈ xs, f y ≤ f x) : pickBest f x xs = (x, xs) := by
  cases xs with
  | nil => rfl
  | cons y ys =>
    rw [pickBest_cons_eq]
    rw [if_neg]
    push_neg
    rcases List.mem_cons.mp (pickBest_fst_mem f y ys) with hm | hm
    · rw [hm]; exact h y (List.mem_cons_self _ _)
    · exact h _ (List.mem_cons_of_mem _ hm)

/-- The selection loop of `selectByMMR`: repeatedly move the best-scoring
remaining candidate into `selected` until `limit` is reached or the pool is
empty. -/
noncomputable def mmrLoop {T : Type} (score : T → ℝ) (content : T → List Char)
    (lam : ℝ) (limit : ℕ) : List T → List T → List T
  | selected, [] => selected
  | selected, x :: xs =>
    if limit ≤ selected.length then selected
    else
      mmrLoop score content lam limit
        (selected ++ [(pickBest (mmrScore score content lam selected) x xs).1])
        (pickBest (mmrScore score content lam selected) x xs).2
termination_by _selected rem => rem.length
decreasing_by simp only [pickBest_snd_length, List.length_cons]; omega

lemma mmrLoop_nil {T : Type} (score : T → ℝ) (content : T → List Char)
    (lam : ℝ) (limit : ℕ) (selected : List T) :
    mmrLoop score content lam limit selected [] = selected := by
  rw [mmrLoop]

lemma mmrLoop_cons {T : Type} (score : T → ℝ) (content : T → List Char)
    (lam : ℝ) (limit : ℕ) (selected : List T) (x : T) (xs : List T) :
    mmrLoop score content lam limit selected (x :: xs) =
      if limit ≤ selected.length then selected
      else
        mmrLoop score content lam limit
          (selected ++ [(pickBest (mmrScore score content lam selected) x xs).1])
          (pickBest (mmrScore score content lam selected) x xs).2 := by
  rw [mmrLoop]

/-- Models `selectByMMR` of diversity.ts. -/
noncomputable def selectByMMR {T : Type} (score : T → ℝ)
    (content : T → List Char) (candidates : List T) (lam : ℝ) (limit : ℕ) :
    List T :=
  mmrLoop score content lam limit [] (sortDesc score candidates)

lemma mmrLoop_split {T : Type} (score : T → ℝ) (content : T → List Char)
    (lam : ℝ) (limit : ℕ) :
    ∀ (n : ℕ) (rem : List T), rem.length ≤ n → ∀ sel : List T,
      ∃ extra, mmrLoop score content lam limit sel rem = sel ++ extra ∧
        extra.Subperm rem := by
  intro n
  induction n with
  | zero =>
    intro rem hrem sel
    have : rem = [] := List.length_eq_zero.mp (Nat.le_zero.mp hrem)
    subst this
    exact ⟨[], by rw [mmrLoop_nil]; simp, List.nil_subperm⟩
  | succ n ih =>
    intro rem hrem sel
    cases rem with
    | nil => exact ⟨[], by rw [mmrLoop_nil]; simp, List.nil_subperm⟩
    | cons x xs =>
      rw [mmrLoop_cons]
      by_cases hl : limit ≤ sel.length
      · rw [if_pos hl]
        exact ⟨[], by simp, List.nil_subperm⟩
      · rw [if_neg hl]
        have hlen : (pickBest (mmrScore score content lam sel) x xs).2.length ≤ n := by
          rw [pickBest_snd_length]
          have := hrem
          simp only [List.length_cons] at this
          omega
        obtain ⟨e, he, hsub⟩ := ih _ hlen
          (sel ++ [(pickBest (mmrScore score content lam sel) x xs).1])
        refine ⟨(pickBest (mmrScore score content lam sel) x xs).1 :: e, ?_, ?_⟩
        · rw [he]
          simp
        · have h1 : ((pickBest (mmrScore score content lam sel) x xs).1 :: e).Subperm
              ((pickBest (mmrScore score content lam sel) x xs).1 ::
                (pickBest (mmrScore score content lam sel) x xs).2) :=
            (List.subperm_cons _).mpr hsub
          exact (List.Perm.subperm_left
            (pickBest_perm (mmrScore score content lam sel) xs x)).mp h1

lemma mmrLoop_length_le {T : Type} (score : T → ℝ) (content : T → List Char)
    (lam : ℝ) (limit : ℕ) :
    ∀ (n : ℕ) (rem : List T), rem.length ≤ n → ∀ sel : List T,
      sel.length ≤ limit →
      (mmrLoop score content lam limit sel rem).length ≤ limit := by
  intro n
  induction n with
  | zero =>
    intro rem hrem sel hsel
    have : rem = [] := List.length_eq_zero.mp (Nat.le_zero.mp hrem)
    subst this
    rw [mmrLoop_nil]
    exact hsel
  | succ n ih =>
    intro rem hrem sel hsel
    cases rem with
    | nil => rw [mmrLoop_nil]; exact hsel
    | cons x xs =>
      rw [mmrLoop_cons]
      by_cases hl : limit ≤ sel.length
      · rw [if_pos hl]; exact hsel
      · rw [if_neg hl]
        apply ih
        · rw [pickBest_snd_length]
          have := hrem
          simp only [List.length_cons] at this
          omega
        · simp only [List.length_append, List.length_singleton]
          omega

lemma mmrScore_one {T : Type} (score : T → ℝ) (content : T → List Char)
    (sel : List T) : mmrScore score content 1 sel = score := by
  funext c
  unfold mmrScore
  ring

lemma mmrLoop_one_sorted {T : Type} (score : T → ℝ) (content : T → List Char)
    (limit : ℕ) :
    ∀ (n : ℕ) (rem : List T), rem.length ≤ n →
      List.Sorted (fun a b => score b ≤ score a) rem → ∀ sel : List T,
      mmrLoop score content 1 limit sel rem
        = sel ++ rem.take (limit - sel.length) := by
  intro n
  induction n with
  | zero =>
    intro rem hrem _ sel
    have : rem = [] := List.length_eq_zero.mp (Nat.le_zero.mp hrem)
    subst this
    rw [mmrLoop_nil]
    simp
  | succ n ih =>
    intro rem hrem hsort sel
    cases rem with
    | nil => rw [mmrLoop_nil]; simp
    | cons x xs =>
      rw [mmrLoop_cons]
      by_cases hl : limit ≤ sel.length
      · rw [if_pos hl]
        have h0 : limit - sel.length = 0 := Nat.sub_eq_zero_of_le hl
        rw [h0]
        simp
      · rw [if_neg hl]
        have hpick : pickBest (mmrScore score content 1 sel) x xs = (x, xs) := by
          rw [mmrScore_one]
          exact pickBest_of_forall_le score x xs
            (fun y hy => List.rel_of_sorted_cons hsort y hy)
        rw [hpick]
        have hxs : xs.length ≤ n := by
          have := hrem
          simp only [List.length_cons] at this
          omega
        rw [ih xs hxs (List.Sorted.of_cons hsort) (sel ++ [x])]
        have hk : limit - sel.length = (limit - (sel.length + 1)) + 1 := by omega
        rw [hk, List.take_succ_cons]
        simp

lemma sortDesc_sorted {T : Type} (score : T → ℝ) (l : List T) :
    List.Sorted (fun a b => score b ≤ score a) (sortDesc score l) := by
  haveI : IsTotal T (fun a b => score b ≤ score a) :=
    ⟨fun a b => le_total (score b) (score a)⟩
  haveI : IsTrans T (fun a b => score b ≤ score a) :=
    ⟨fun _ _ _ hab hbc => le_trans hbc hab⟩
  exact List.sorted_insertionSort _ _

lemma sortDesc_perm {T : Type} (score : T → ℝ) (l : List T) :
    (sortDesc score l).Perm l :=
  List.perm_insertionSort _ _

lemma selectByMMR_subperm {T : Type} (score : T → ℝ) (content : T → List Char)
    (candidates : List T) (lam : ℝ) (limit : ℕ) :
    (selectByMMR score content candidates lam limit).Subperm candidates := by
  obtain ⟨extra, he, hsub⟩ := mmrLoop_split score content lam limit
    (sortDesc score candidates).length (sortDesc score candidates) le_rfl []
  unfold selectByMMR
  rw [he]
  simp only [List.nil_append]
  exact (List.Perm.subperm_left (sortDesc_perm score candidates)).mp hsub

/-- C5: `selectByMMR` uses every input element at most as often as it
occurs in the input (in particular no input item is returned twice) and
returns at most `limit` items; and at lambda = 1 it returns exactly the
candidates in stable descending score order truncated to `limit` (the
stable sort resolves ties in favor of the first-encountered item). -/
theorem selectByMMR_spec {T : Type} (score : T → ℝ) (content : T → List Char)
    (candidates : List T) (lam : ℝ) (limit : ℕ) :
    (selectByMMR score content candidates lam limit).Subperm candidates ∧
    (selectByMMR score content candidates lam limit).length ≤ limit ∧
    selectByMMR score content candidates 1 limit
      = (sortDesc score candidates).take limit := by
  refine ⟨?_, ?_, ?_⟩
  · exact selectByMMR_subperm score content candidates lam limit
  · exact mmrLoop_length_le score content lam limit
      (sortDesc score candidates).length (sortDesc score candidates) le_rfl []
      (Nat.zero_le _)
  · unfold selectByMMR
    rw [mmrLoop_one_sorted score content limit
      (sortDesc score candidates).length (sortDesc score candidates) le_rfl
      (sortDesc_sorted score candidates) []]
    simp

/-! ### Learning loop (signals.ts) -/

/-- Modelled from the spec: `makeRatingKey` lives in memory/utils.ts, which
is not among the provided sources; per the spec the rating key is the
string `${memoryId}::${kernelId}`. -/
def makeRatingKey (memoryId kernelId : List Char) : List Char :=
  memoryId ++ ':' :: ':' :: kernelId

lemma makeRatingKey_inj_left {m m' k : List Char}
    (h : makeRatingKey m k = makeRatingKey m' k) : m = m' := by
  unfold makeRatingKey at h
  exact List.append_cancel_right h

/-- The mutable state that `applyFeedback` loads, transforms and saves: the
keyed rating table and the interaction log. -/
structure FBState where
  ratings : List Char → Option MemoryRating
  interactions : List MemoryInteraction

/-- One iteration of the `applyFeedback` loop: fetch-or-initialize the
rating for `(memoryId, kernelId)`, apply the Kalman update, write it back,
and append one interaction record; `uid` models the `crypto.randomUUID()`
result of this iteration. -/
noncomputable def feedbackStep (kernelId contextId : List Char) (now : ℤ)
    (st : FBState) (memoryId : List Char) (reward : ℝ) (uid : List Char) :
    FBState :=
  let key := makeRatingKey memoryId kernelId
  let currentRating := (st.ratings key).getD (initialRating memoryId kernelId now)
  let newRating := updateRating currentRating reward now
  { ratings := fun q => if q = key then some newRating else st.ratings q
    interactions := st.interactions ++
      [{ id := uid, memoryId := memoryId, kernelId := kernelId
         contextId := contextId, reward := reward, timestamp := now }] }

/-- The `for (const { memoryId, reward } of rewards)` loop of
`applyFeedback`, with `i` counting the `crypto.randomUUID()` calls drawn
from the id stream `uuid`. -/
noncomputable def applyFeedbackGo (kernelId contextId : List Char)
    (uuid : ℕ → List Char) (now : ℤ) :
    ℕ → List (List Char × ℝ) → FBState → FBState
  | _, [], st => st
  | i, r :: rest, st =>
    applyFeedbackGo kernelId contextId uuid now (i + 1) rest
      (feedbackStep kernelId contextId now st r.1 r.2 (uuid i))

/-- Models `applyFeedback` of signals.ts as a state transformer on the
in-memory rating table and interaction log (the storage round trip is the
identity on this state). -/
noncomputable def applyFeedback (kernelId contextId : List Char)
    (rewards : List (List Char × ℝ)) (uuid : ℕ → List Char) (now : ℤ)
    (st : FBState) : FBState :=
  applyFeedbackGo kernelId contextId uuid now 0 rewards st

/-- Models `recordUsage` of signals.ts: delegates to `applyFeedback` with
reward +1 for every supplied memory id. -/
noncomputable def recordUsage (kernelId contextId : List Char)
    (memoryIds : List (List Char)) (uuid : ℕ → List Char) (now : ℤ)
    (st : FBState) : FBState :=
  applyFeedback kernelId contextId (memoryIds.map (fun m => (m, 1))) uuid now st

lemma applyFeedbackGo_interactions (kernelId contextId : List Char)
    (uuid : ℕ → List Char) (now : ℤ) :
    ∀ (rw : List (List Char × ℝ)) (i : ℕ) (st : FBState),
      (applyFeedbackGo kernelId contextId uuid now i rw st).interactions
        = st.interactions ++ (List.enumFrom i rw).map
            (fun p => { id := uuid p.1, memoryId := p.2.1, kernelId := kernelId
                        contextId := contextId, reward := p.2.2
                        timestamp := now }) := by
  intro rw
  induction rw with
  | nil => intro i st; simp [applyFeedbackGo]
  | cons r rest ih =>
    intro i st
    show (applyFeedbackGo kernelId contextId uuid now (i + 1) rest
        (feedbackStep kernelId contextId now st r.1 r.2 (uuid i))).interactions = _
    rw [ih]
    simp [feedbackStep, List.enumFrom]

lemma applyFeedbackGo_ratings_other (kernelId contextId : List Char)
    (uuid : ℕ → List Char) (now : ℤ) :
    ∀ (rw : List (List Char × ℝ)) (i : ℕ) (st : FBState) (q : List Char),
      (∀ r ∈ rw, makeRatingKey r.1 kernelId ≠ q) →
      (applyFeedbackGo kernelId contextId uuid now i rw st).ratings q
        = st.ratings q := by
  intro rw
  induction rw with
  | nil => intro i st q _; rfl
  | cons r rest ih =>
    intro i st q h
    show (applyFeedbackGo kernelId contextId uuid now (i + 1) rest
        (feedbackStep kernelId contextId now st r.1 r.2 (uuid i))).ratings q = _
    rw [ih _ _ _ (fun s hs => h s (List.mem_cons_of_mem _ hs))]
    show (if q = makeRatingKey r.1 kernelId then _ else st.ratings q) = st.ratings q
    rw [if_neg (fun heq => h r (List.mem_cons_self _ _) heq.symm)]

lemma recordUsageGo_rating (kernelId contextId : List Char)
    (uuid : ℕ → List Char) (now : ℤ) :
    ∀ (ids : List (List Char)) (i : ℕ) (st : FBState), ids.Nodup →
      ∀ m ∈ ids,
        (applyFeedbackGo kernelId contextId uuid now i
            (ids.map (fun x => (x, 1))) st).ratings (makeRatingKey m kernelId)
          = some (updateRating
              ((st.ratings (makeRatingKey m kernelId)).getD
                (initialRating m kernelId now)) 1 now) := by
  intro ids
  induction ids with
  | nil => intro i st _ m hm; cases hm
  | cons a as ih =>
    intro i st hnd m hm
    have hnd' := List.nodup_cons.mp hnd
    show (applyFeedbackGo kernelId contextId uuid now (i + 1)
        (as.map (fun x => (x, 1)))
        (feedbackStep kernelId contextId now st a 1 (uuid i))).ratings
        (makeRatingKey m kernelId) = _
    rcases List.mem_cons.mp hm with hma | hmas
    · subst hma
      rw [applyFeedbackGo_ratings_other kernelId contextId uuid now _ _ _ _
        (fun r hr => ?_)]
      · show (if makeRatingKey m kernelId = makeRatingKey m kernelId
            then some (updateRating ((st.ratings (makeRatingKey m kernelId)).getD
              (initialRating m kernelId now)) 1 now)
            else st.ratings (makeRatingKey m kernelId)) = _
        rw [if_pos rfl]
      · rcases List.mem_map.mp hr with ⟨x, hx, hxr⟩
        intro hkey
        have : r.1 = m := makeRatingKey_inj_left hkey
        rw [← hxr] at this
        exact hnd'.1 (this ▸ hx)
    · have hstep : (feedbackStep kernelId contextId now st a 1 (uuid i)).ratings
          (makeRatingKey m kernelId)
          = st.ratings (makeRatingKey m kernelId) := by
        show (if makeRatingKey m kernelId = makeRatingKey a kernelId
            then _ else st.ratings (makeRatingKey m kernelId)) = _
        rw [if_neg (fun heq => ?_)]
        have : m = a := makeRatingKey_inj_left heq
        exact hnd'.1 (this ▸ hmas)
      rw [ih _ _ hnd'.2 m hmas, hstep]

/-- C7: `recordUsage` has exactly the `applyFeedback` effect with reward +1
for each id (it is the same state transformer); the interaction log gains
one reward-+1 record per memory id in order, and for distinct memory ids
the rating of every supplied id is the Kalman update with reward +1 of its
previous (or freshly initialized) value, so its `uses` counter is bumped by
exactly 1. -/
theorem recordUsage_equiv (kernelId contextId : List Char)
    (memoryIds : List (List Char)) (uuid : ℕ → List Char) (now : ℤ)
    (st : FBState) (hnd : memoryIds.Nodup) :
    recordUsage kernelId contextId memoryIds uuid now st
      = applyFeedback kernelId contextId (memoryIds.map (fun m => (m, 1)))
          uuid now st ∧
    (recordUsage kernelId contextId memoryIds uuid now st).interactions
      = st.interactions ++ memoryIds.enum.map
          (fun p => { id := uuid p.1, memoryId := p.2, kernelId := kernelId
                      contextId := contextId, reward := 1, timestamp := now }) ∧
    ∀ m ∈ memoryIds,
      (recordUsage kernelId contextId memoryIds uuid now st).ratings
          (makeRatingKey m kernelId)
        = some (updateRating
            ((st.ratings (makeRatingKey m kernelId)).getD
              (initialRating m kernelId now)) 1 now) ∧
      ((recordUsage kernelId contextId memoryIds uuid now st).ratings
          (makeRatingKey m kernelId)).map MemoryRating.uses
        = some (((st.ratings (makeRatingKey m kernelId)).getD
            (initialRating m kernelId now)).uses + 1) := by
  have hlog : ∀ (ids : List (List Char)) (i : ℕ),
      (List.enumFrom i (ids.map (fun m => (m, (1 : ℝ))))).map
        (fun p => ({ id := uuid p.1, memoryId := p.2.1, kernelId := kernelId
                     contextId := contextId, reward := p.2.2
                     timestamp := now } : MemoryInteraction))
      = (List.enumFrom i ids).map
          (fun p => ({ id := uuid p.1, memoryId := p.2, kernelId := kernelId
                       contextId := contextId, reward := 1
                       timestamp := now } : MemoryInteraction)) := by
    intro ids
    induction ids with
    | nil => intro i; rfl
    | cons a as ih =>
      intro i
      simp only [List.map_cons, List.enumFrom, List.map]
      rw [ih]
  refine ⟨rfl, ?_, ?_⟩
  · show (applyFeedbackGo kernelId contextId uuid now 0
        (memoryIds.map (fun m => (m, 1))) st).interactions = _
    rw [applyFeedbackGo_interactions]
    congr 1
    exact hlog memoryIds 0
  · intro m hm
    have h := recordUsageGo_rating kernelId contextId uuid now memoryIds 0 st
      hnd m hm
    refine ⟨h, ?_⟩
    rw [show (recordUsage kernelId contextId memoryIds uuid now st).ratings
        (makeRatingKey m kernelId) = _ from h]
    simp [updateRating_uses]

/-- Witness for C7 at two concrete distinct memory ids and an empty
starting state. -/
theorem recordUsage_equiv_witness :
    ([['a'], ['b']] : List (List Char)).Nodup ∧
    ∀ m ∈ ([['a'], ['b']] : List (List Char)),
      ((recordUsage ['k'] ['c'] [['a'], ['b']] (fun _ => []) 0
          ⟨fun _ => none, []⟩).ratings (makeRatingKey m ['k'])).map
          MemoryRating.uses
        = some ((((⟨fun _ => none, []⟩ : FBState).ratings
            (makeRatingKey m ['k'])).getD (initialRating m ['k'] 0)).uses + 1) :=
  ⟨by decide, fun m hm =>
    ((recordUsage_equiv ['k'] ['c'] [['a'], ['b']] (fun _ => []) 0
      ⟨fun _ => none, []⟩ (by decide)).2.2 m hm).2⟩

/-! ### Weighted sampling (diversity.ts) and the selector (selector.ts) -/

/-- The index walk of the weighted branch of `weightedSample`:
`while (idx < w.length && random > max(0, w[idx])) { random -= ...; idx++ }`. -/
noncomputable def walkIdx : ℝ → List ℝ → ℕ
  | _, [] => 0
  | r, x :: xs => if max 0 x < r then 1 + walkIdx (r - max 0 x) xs else 0

/-- One round of `weightedSample`, with `i` counting `Math.random()` draws
from the stream `u` and recursion on the number of draws still wanted.  The
uniform branch's index is clamped into range like the weighted branch's
(`Math.random() < 1` makes that clamp inert in JS). -/
noncomputable def wsLoop {T : Type} (u : ℕ → ℝ) :
    ℕ → List T → List ℝ → ℕ → List T
  | _, _, _, 0 => []
  | _, [], _, _ + 1 => []
  | i, p :: ps, w, k + 1 =>
    let total := (w.map (fun x => max 0 x)).sum
    let len := (p :: ps).length
    let idx0 :=
      if total = 0 then Int.toNat ⌊u i * (len : ℝ)⌋
      else walkIdx (u i * total) w
    let idx := if len ≤ idx0 then len - 1 else idx0
    match (p :: ps)[idx]? with
    | some x => x :: wsLoop u (i + 1) ((p :: ps).eraseIdx idx) (w.eraseIdx idx) k
    | none => []

/-- Models `weightedSample` of diversity.ts. -/
noncomputable def weightedSample {T : Type} (items : List T) (weights : List ℝ)
    (k : ℕ) (u : ℕ → ℝ) : List T :=
  wsLoop u 0 items weights k

lemma wsLoop_singleton {T : Type} (u : ℕ → ℝ) (i : ℕ) (x : T) (w : List ℝ) :
    wsLoop u i [x] w 1 = [x] := by
  rw [wsLoop]
  have hidx : ∀ idx0 : ℕ,
      (if ([x] : List T).length ≤ idx0 then ([x] : List T).length - 1 else idx0)
        = 0 := by
    intro idx0
    simp only [List.length_singleton]
    split <;> omega
  rw [hidx]
  simp [wsLoop]

lemma wsLoop_subset {T : Type} (u : ℕ → ℝ) :
    ∀ (k i : ℕ) (pool : List T) (w : List ℝ),
      ∀ x ∈ wsLoop u i pool w k, x ∈ pool := by
  intro k
  induction k with
  | zero => intro i pool w x hx; rw [wsLoop] at hx; cases hx
  | succ k ih =>
    intro i pool w x hx
    cases pool with
    | nil => rw [wsLoop] at hx; cases hx
    | cons p ps =>
      rw [wsLoop] at hx
      set idx := if (p :: ps).length ≤ (if ((w.map (fun x => max 0 x)).sum = 0)
          then Int.toNat ⌊u i * (((p :: ps).length : ℕ) : ℝ)⌋
          else walkIdx (u i * (w.map (fun x => max 0 x)).sum) w)
        then (p :: ps).length - 1
        else (if ((w.map (fun x => max 0 x)).sum = 0)
          then Int.toNat ⌊u i * (((p :: ps).length : ℕ) : ℝ)⌋
          else walkIdx (u i * (w.map (fun x => max 0 x)).sum) w) with hidx
      cases hget : (p :: ps)[idx]? with
      | none => rw [hget] at hx; cases hx
      | some y =>
        rw [hget] at hx
        rcases List.mem_cons.mp hx with h | h
        · subst h
          exact List.getElem?_mem hget
        · have := ih (i + 1) _ _ x h
          exact (List.eraseIdx_sublist _ _).subset this

/-- The scored record accumulated by the selector loop (a `ScoredItem` with
the extra `memory` and `signals` fields of selector.ts). -/
structure ScoredEntry where
  id : List Char
  content : List Char
  score : ℝ
  tags : List (List Char)
  memory : MemoryChunk
  signals : UtilitySignals

/-- The `SelectedMemory` record of types.ts. -/
structure SelectedMemory where
  memoryId : List Char
  content : List Char
  tags : List (List Char)
  score : ℝ
  signals : UtilitySignals

/-- The query text built by `selectMemories`: kernel name and prompt, then
the joined keywords when nonempty, then the joined extra query terms when
nonempty, all joined by single spaces. -/
def queryText (kernel : PromptKernel) (queryTerms : List (List Char)) :
    List Char :=
  joinSpace ([kernel.name, kernel.prompt]
    ++ (if kernel.keywords.length ≠ 0 then [joinSpace kernel.keywords] else [])
    ++ (if queryTerms.length ≠ 0 then [joinSpace queryTerms] else []))

/-- The body of the per-candidate loop of `selectMemories`: BM25 score,
fetch-or-initialize the rating, one Thompson draw (the two `Math.random()`
results come from the stream entry `thompsonU i` for the i-th candidate),
composite utility, and the scored record whose `signals` carries the raw
`thompsonScore` through the `{ ...signals, thompson: thompsonScore }`
spread. -/
noncomputable def scoreCandidate (kernel : PromptKernel)
    (df : List Char → ℕ) (totalDocs : ℕ) (avgDocLength : ℝ)
    (queryTokens : List (List Char))
    (ratings : List Char → Option MemoryRating) (now : ℤ)
    (thompsonU : ℕ → ℝ × ℝ) (i : ℕ) (memory : MemoryChunk) : ScoredEntry :=
  let docTokens := tokenize memory.content
  let bm25Score := calculateBM25 queryTokens docTokens df totalDocs avgDocLength
  let rating := (ratings (makeRatingKey memory.id kernel.id)).getD
    (initialRating memory.id kernel.id now)
  let thompsonScore := thompsonSample rating.mu rating.sigma
    (thompsonU i).1 (thompsonU i).2
  let r := calculateUtility now memory kernel bm25Score thompsonScore
  { id := memory.id
    content := memory.content
    score := r.total
    tags := memory.tags
    memory := memory
    signals := { r.signals with thompson := thompsonScore } }

/-- Models `selectMemories` of selector.ts.  The rating table is the keyed
map passed by the caller; `thompsonU` and `sampleU` model the
`Math.random()` streams consumed by Thompson sampling and by
`weightedSample`; `now` models `Date.now()`. -/
noncomputable def selectMemories (memories : List MemoryChunk)
    (kernel : PromptKernel) (ratings : List Char → Option MemoryRating)
    (limit : ℕ) (queryTerms : List (List Char)) (bypassTagFilter : Bool)
    (thompsonU : ℕ → ℝ × ℝ) (sampleU : ℕ → ℝ) (now : ℤ) :
    List SelectedMemory :=
  if memories.length = 0 then []
  else
    let candidates :=
      if 0 < kernel.keywords.length ∧ bypassTagFilter = false then
        memories.filter (fun m => m.tags.any
          (fun t => (kernel.keywords.map lowerStr).contains (lowerStr t)))
      else memories
    if candidates.length = 0 then []
    else
      let df := buildDocumentFrequencies (candidates.map (fun m => m.content))
      let totalDocs := candidates.length
      let avgDocLength := ((candidates.map
          (fun m => ((tokenize m.content).length : ℝ))).sum) / (totalDocs : ℝ)
      let queryTokens := tokenize (queryText kernel queryTerms)
      let scored := candidates.enum.map (fun p =>
        scoreCandidate kernel df totalDocs avgDocLength queryTokens ratings now
          thompsonU p.1 p.2)
      let oversampleK := min (limit * 3) scored.length
      let oversampled := weightedSample scored
        (scored.map (fun s => s.score)) oversampleK sampleU
      let diverse := selectByMMR (fun s : ScoredEntry => s.score)
        (fun s => s.content) oversampled 0.7 limit
      diverse.map (fun item =>
        { memoryId := item.memory.id
          content := item.memory.content
          tags := item.memory.tags
          score := item.score
          signals := item.signals })

lemma pickBest_nil {T : Type} (f : T → ℝ) (x : T) : pickBest f x [] = (x, []) :=
  rfl

lemma sortDesc_singleton {T : Type} (score : T → ℝ) (x : T) :
    sortDesc score [x] = [x] := by
  unfold sortDesc
  simp [List.insertionSort, List.orderedInsert]

lemma selectByMMR_singleton {T : Type} (score : T → ℝ)
    (content : T → List Char) (x : T) (lam : ℝ) (limit : ℕ)
    (hlim : 0 < limit) :
    selectByMMR score content [x] lam limit = [x] := by
  unfold selectByMMR
  rw [sortDesc_singleton, mmrLoop_cons]
  rw [if_neg (by simp; omega)]
  rw [pickBest_nil]
  rw [mmrLoop_nil]
  simp

lemma thompsonSample_neg_draw :
    thompsonSample 0 1.0 (Real.exp (-2)) (1 / 2) = -2 := by
  unfold thompsonSample
  rw [if_neg (Real.exp_pos _).ne']
  rw [if_neg (by norm_num : (1 / 2 : ℝ) ≠ 0)]
  show (0 : ℝ) + 1.0 * (Real.sqrt (-2 * Real.log (Real.exp (-2)))
    * Real.cos (2 * Real.pi * (1 / 2))) = -2
  rw [Real.log_exp]
  rw [show (-2 : ℝ) * -2 = 4 by norm_num]
  rw [show (2 : ℝ) * Real.pi * (1 / 2) = Real.pi by ring]
  rw [Real.cos_pi]
  have h4 : Real.sqrt 4 = 2 := by
    rw [show (4 : ℝ) = 2 ^ 2 by norm_num]
    exact Real.sqrt_sq (by norm_num)
  rw [h4]
  norm_num

lemma selectMemories_singleton_thompson (m : MemoryChunk)
    (kernel : PromptKernel) (hkw : kernel.keywords = [])
    (ratings : List Char → Option MemoryRating) (limit : ℕ) (hlim : 0 < limit)
    (queryTerms : List (List Char)) (thompsonU : ℕ → ℝ × ℝ)
    (sampleU : ℕ → ℝ) (now : ℤ) :
    ∃ s ∈ selectMemories [m] kernel ratings limit queryTerms false
        thompsonU sampleU now,
      s.signals.thompson = thompsonSample
        ((ratings (makeRatingKey m.id kernel.id)).getD
          (initialRating m.id kernel.id now)).mu
        ((ratings (makeRatingKey m.id kernel.id)).getD
          (initialRating m.id kernel.id now)).sigma
        (thompsonU 0).1 (thompsonU 0).2 := by
  have hmin : min (limit * 3) 1 = 1 := by omega
  unfold selectMemories
  rw [if_neg (by simp)]
  simp only [hkw, List.length_nil, lt_irrefl, false_and, if_false,
    List.length_singleton, one_ne_zero, List.enum, List.enumFrom,
    List.map_cons, List.map_nil, hmin]
  unfold weightedSample
  rw [wsLoop_singleton]
  rw [selectByMMR_singleton _ _ _ _ _ hlim]
  simp only [List.map_cons, List.map_nil]
  refine ⟨_, List.mem_singleton_self _, ?_⟩
  rfl

/-- Concrete memory for the C9 run. -/
def c9Memory : MemoryChunk :=
  { id := "m1".data
    content := "raft consensus algorithm".data
    tags := []
    importance := 5
    timestamp := 0
    associations := [] }

/-- Concrete kernel for the C9 run (no keywords, so no tag pre-filter). -/
def c9Kernel : PromptKernel :=
  { id := "k1".data
    name := "n".data
    prompt := "raft".data
    keywords := [] }

/-- C9: the `thompson` field of the emitted signals is the raw Thompson
sample.  First, `calculateUtility` stores its `thompsonScore` argument
unmapped in `signals.thompson`; second, every memory returned by
`selectMemories` carries `signals.thompson` equal to the raw sample
`mu + sigma * z` for its rating and its Thompson draw; third, on a concrete
run (fresh rating mu = 0, sigma = 1, Box-Muller draws u1 = exp(-2),
u2 = 1/2, hence z = -2) `selectMemories` emits `signals.thompson = -2 < 0`,
which the [0,1]-mapped value used inside the composite never is. -/
theorem selectMemories_thompson_raw :
    (∀ (now : ℤ) (memory : MemoryChunk) (kernel : PromptKernel) (b t : ℝ),
      (calculateUtility now memory kernel b t).signals.thompson = t) ∧
    (∀ (memories : List MemoryChunk) (kernel : PromptKernel)
        (ratings : List Char → Option MemoryRating) (limit : ℕ)
        (queryTerms : List (List Char)) (bypass : Bool)
        (thompsonU : ℕ → ℝ × ℝ) (sampleU : ℕ → ℝ) (now : ℤ),
      ∀ s ∈ selectMemories memories kernel ratings limit queryTerms bypass
          thompsonU sampleU now,
        ∃ (m : MemoryChunk) (i : ℕ), m ∈ memories ∧
          s.signals.thompson = thompsonSample
            ((ratings (makeRatingKey m.id kernel.id)).getD
              (initialRating m.id kernel.id now)).mu
            ((ratings (makeRatingKey m.id kernel.id)).getD
              (initialRating m.id kernel.id now)).sigma
            (thompsonU i).1 (thompsonU i).2) ∧
    (∃ s ∈ selectMemories [c9Memory] c9Kernel (fun _ => none) 20 [] false
        (fun _ => (Real.exp (-2), 1 / 2)) (fun _ => 0) 0,
      s.signals.thompson < 0) := by
  refine ⟨fun _ _ _ _ _ => rfl, ?_, ?_⟩
  · intro memories kernel ratings limit queryTerms bypass thompsonU sampleU now
      s hs
    unfold selectMemories at hs
    by_cases h0 : memories.length = 0
    · rw [if_pos h0] at hs; cases hs
    rw [if_neg h0] at hs
    set candidates :=
      if 0 < kernel.keywords.length ∧ bypass = false then
        memories.filter (fun m => m.tags.any
          (fun t => (kernel.keywords.map lowerStr).contains (lowerStr t)))
      else memories with hcand
    by_cases h1 : candidates.length = 0
    · rw [if_pos h1] at hs; cases hs
    rw [if_neg h1] at hs
    rcases List.mem_map.mp hs with ⟨item, hitem, hconv⟩
    have hsub1 := (selectByMMR_subperm (fun s : ScoredEntry => s.score)
      (fun s => s.content) _ 0.7 limit).subset hitem
    have hsub2 := wsLoop_subset sampleU _ 0 _ _ item hsub1
    rcases List.mem_map.mp hsub2 with ⟨p, hp, hsc⟩
    have hmem : p.2 ∈ candidates := List.snd_mem_of_mem_enum hp
    have hmem2 : p.2 ∈ memories := by
      rw [hcand] at hmem
      by_cases hf : 0 < kernel.keywords.length ∧ bypass = false
      · rw [if_pos hf] at hmem
        exact List.mem_of_mem_filter hmem
      · rw [if_neg hf] at hmem
        exact hmem
    refine ⟨p.2, p.1, hmem2, ?_⟩
    rw [← hconv, ← hsc]
    rfl
  · obtain ⟨s, hmem, heq⟩ := selectMemories_singleton_thompson c9Memory
      c9Kernel rfl (fun _ => none) 20 (by norm_num) []
      (fun _ => (Real.exp (-2), 1 / 2)) (fun _ => 0) 0
    refine ⟨s, hmem, ?_⟩
    rw [heq]
    show thompsonSample 0 1.0 (Real.exp (-2)) (1 / 2) < 0
    rw [thompsonSample_neg_draw]
    norm_num

/-- Witness for C9 on the concrete run: the returned memory's raw
Thompson field is the sample of its (fresh) rating at the concrete draws. -/
theorem selectMemories_thompson_raw_witness :
    ∃ s ∈ selectMemories [c9Memory] c9Kernel (fun _ => none) 20 [] false
        (fun _ => (Real.exp (-2), 1 / 2)) (fun _ => 0) 0,
      ∃ (m : MemoryChunk) (i : ℕ), m ∈ [c9Memory] ∧
        s.signals.thompson = thompsonSample
          (((fun _ : List Char => (none : Option MemoryRating))
              (makeRatingKey m.id c9Kernel.id)).getD
            (initialRating m.id c9Kernel.id 0)).mu
          (((fun _ : List Char => (none : Option MemoryRating))
              (makeRatingKey m.id c9Kernel.id)).getD
            (initialRating m.id c9Kernel.id 0)).sigma
          ((fun _ : ℕ => (Real.exp (-2), (1 / 2 : ℝ))) i).1
          ((fun _ : ℕ => (Real.exp (-2), (1 / 2 : ℝ))) i).2 := by
  obtain ⟨s, hmem, _⟩ := selectMemories_thompson_raw.2.2
  exact ⟨s, hmem, selectMemories_thompson_raw.2.1 [c9Memory] c9Kernel
    (fun _ => none) 20 [] false (fun _ => (Real.exp (-2), 1 / 2))
    (fun _ => 0) 0 s hmem⟩

end Sidechain
